import Mathlib

/-!
Shallow embedding of the two cache data structures of the repository
(`task_1.py`: an LRU cache over `OrderedDict` together with the range-sum
workload helpers; `task_2.py`: a splay tree and the two memoized Fibonacci
functions), together with proofs of the specification claims about them.

The Python `OrderedDict` backing the LRU cache is modelled as an association
list ordered from oldest (head) to newest (last); the splay tree, whose nodes
carry parent pointers in the source, is modelled as a binary tree together
with a zipper context that plays the role of the chain of parent pointers
above the node currently in hand.
-/

namespace Task1

/-- Keys of the LRU cache are the `(left, right)` range pairs of the workload. -/
abbrev Key := ℤ × ℤ

/-- An entry list in recency order: head = oldest, last = newest.
This is the denotation of the Python `OrderedDict`. -/
abbrev Entries := List (Key × ℤ)

/-- `key in self.cache` on the ordered dict. -/
def containsKey (xs : Entries) (k : Key) : Bool :=
  match xs with
  | [] => false
  | e :: rest => e.1 = k || containsKey rest k

/-- `self.cache[key]` read on the ordered dict (first binding wins; the
nodup invariant of a real dict makes it the unique one). -/
def lookupKey (xs : Entries) (k : Key) : Option ℤ :=
  match xs with
  | [] => none
  | e :: rest => if e.1 = k then some e.2 else lookupKey rest k

/-- `del self.cache[key]`: remove the (first) binding of `k`. -/
def eraseKey (xs : Entries) (k : Key) : Entries :=
  match xs with
  | [] => []
  | e :: rest => if e.1 = k then rest else e :: eraseKey rest k

/-- The state of `LRUCache` from `task_1.py`: the ordered dict plus the
stored capacity. -/
structure LRUCache where
  cache : Entries
  capacity : ℤ
deriving Repr, DecidableEq

namespace LRUCache

/-- `LRUCache.__init__`: stores the capacity verbatim and starts with an
empty ordered dict. No validation of any kind is performed. -/
def init (capacity : ℤ) : LRUCache :=
  { cache := [], capacity := capacity }

/-- `LRUCache.get`: on a miss return `-1` and leave the dict untouched;
on a hit, `move_to_end` the entry (remove it, re-append at the newest end)
and return its value. -/
def get (s : LRUCache) (k : Key) : ℤ × LRUCache :=
  match lookupKey s.cache k with
  | none => (-1, s)
  | some v => (v, { s with cache := eraseKey s.cache k ++ [(k, v)] })

/-- `LRUCache.put`: `self.cache[key] = value` followed by `move_to_end(key)`
amounts to removing any existing binding of `key` and appending `(key, value)`
at the newest end; then, if the length exceeds the capacity,
`popitem(last=False)` drops the oldest entry (the head). -/
def put (s : LRUCache) (k : Key) (v : ℤ) : LRUCache :=
  let c1 := eraseKey s.cache k ++ [(k, v)]
  let c2 := if (c1.length : ℤ) > s.capacity then c1.tail else c1
  { s with cache := c2 }

end LRUCache

/-- One client operation on the LRU cache. -/
inductive Op where
  | put (k : Key) (v : ℤ)
  | get (k : Key)
deriving Repr, DecidableEq

/-- Apply one operation (discarding `get`'s returned value). -/
def applyOp (s : LRUCache) (o : Op) : LRUCache :=
  match o with
  | .put k v => s.put k v
  | .get k => (s.get k).2

/-- Apply a sequence of operations in order. -/
def applyOps (s : LRUCache) (ops : List Op) : LRUCache :=
  ops.foldl applyOp s

/-- A Python slice bound for a list of length `len`: negative indices count
from the end (clamped at 0), nonnegative ones are clamped at `len`. -/
def sliceIdx (len : ℕ) (i : ℤ) : ℕ :=
  if i < 0 then (len + i).toNat else min i.toNat len

/-- `array[l : r]` on a Python list. -/
def pySlice (xs : List ℤ) (l r : ℤ) : List ℤ :=
  (xs.drop (sliceIdx xs.length l)).take (sliceIdx xs.length r - sliceIdx xs.length l)

/-- `sum(array[left : right + 1])`. -/
def sliceSum (xs : List ℤ) (left right : ℤ) : ℤ :=
  (pySlice xs left (right + 1)).sum

/-- `range_sum_no_cache` from `task_1.py`. -/
def range_sum_no_cache (array : List ℤ) (left right : ℤ) : ℤ :=
  sliceSum array left right

/-- `array[index] = value` on a Python list: negative indices count from the
end; an out-of-range index raises `IndexError`, modelled as `none`. -/
def pySetItem (xs : List ℤ) (i : ℤ) (v : ℤ) : Option (List ℤ) :=
  if -(xs.length : ℤ) ≤ i ∧ i < (xs.length : ℤ) then
    some (xs.set (if i < 0 then ((xs.length : ℤ) + i).toNat else i.toNat) v)
  else
    none

/-- `update_no_cache` from `task_1.py`. -/
def update_no_cache (array : List ℤ) (index value : ℤ) : Option (List ℤ) :=
  pySetItem array index value

/-- `range_sum_with_cache` from `task_1.py`: look the range up in the cache;
whenever the returned value is `-1` it is treated as a miss, the sum is
recomputed from the array and stored. Returns the sum and the new cache. -/
def range_sum_with_cache (array : List ℤ) (left right : ℤ) (cache : LRUCache) :
    ℤ × LRUCache :=
  let key : Key := (left, right)
  let r1 := cache.get key
  if r1.1 = -1 then
    let result := sliceSum array left right
    (result, r1.2.put key result)
  else
    (r1.1, r1.2)

/-- The key-collection loop of `update_with_cache`: all keys `(l, r)` of the
dict with `l <= index <= r`, in iteration order. -/
def keysToInvalidate (xs : Entries) (index : ℤ) : List Key :=
  (xs.filter (fun e => e.1.1 ≤ index ∧ index ≤ e.1.2)).map Prod.fst

/-- The deletion loop of `update_with_cache`: `del cache.cache[key]` for each
collected key (guarded by a containment test, as in the source). -/
def deleteKeys (xs : Entries) (ks : List Key) : Entries :=
  ks.foldl (fun acc k => if containsKey acc k then eraseKey acc k else acc) xs

/-- `update_with_cache` from `task_1.py`: write `value` at `index` (raising,
i.e. `none`, on an out-of-range index before the cache is touched), then
invalidate every cached range containing `index`. -/
def update_with_cache (array : List ℤ) (index value : ℤ) (cache : LRUCache) :
    Option (List ℤ × LRUCache) :=
  match pySetItem array index value with
  | none => none
  | some array2 =>
      let ks := keysToInvalidate cache.cache index
      some (array2, { cache with cache := deleteKeys cache.cache ks })

theorem containsKey_false_iff (xs : Entries) (k : Key) :
    containsKey xs k = false ↔ lookupKey xs k = none := by
  induction xs with
  | nil => simp [containsKey, lookupKey]
  | cons e rest ih =>
      by_cases h : e.1 = k <;> simp [containsKey, lookupKey, h] at ih ⊢
      exact ih

theorem eraseKey_of_not_contains (xs : Entries) (k : Key)
    (h : containsKey xs k = false) : eraseKey xs k = xs := by
  induction xs with
  | nil => rfl
  | cons e rest ih =>
      rw [show containsKey (e :: rest) k = (decide (e.1 = k) || containsKey rest k) from rfl] at h
      rcases Bool.or_eq_false_iff.mp h with ⟨h1, h2⟩
      have he : ¬ e.1 = k := by simpa using h1
      simp [eraseKey, he, ih h2]

theorem eraseKey_length_of_lookup (xs : Entries) (k : Key) (v : ℤ)
    (h : lookupKey xs k = some v) : (eraseKey xs k).length + 1 = xs.length := by
  induction xs with
  | nil => simp [lookupKey] at h
  | cons e rest ih =>
      by_cases he : e.1 = k
      · simp [eraseKey, he]
      · simp [lookupKey, he] at h
        simp [eraseKey, he, ih h]

theorem get_cache_length (s : LRUCache) (k : Key) :
    ((s.get k).2).cache.length = s.cache.length := by
  unfold LRUCache.get
  cases h : lookupKey s.cache k with
  | none => rfl
  | some v => simpa using eraseKey_length_of_lookup s.cache k v h

theorem eraseKey_length_le (xs : Entries) (k : Key) :
    (eraseKey xs k).length ≤ xs.length := by
  induction xs with
  | nil => simp [eraseKey]
  | cons e rest ih =>
      by_cases he : e.1 = k
      · simp [eraseKey, he]
      · simpa [eraseKey, he] using ih

theorem put_cache_length (s : LRUCache) (k : Key) (v : ℤ)
    (h : (s.cache.length : ℤ) ≤ s.capacity) :
    (((s.put k v).cache.length : ℤ)) ≤ s.capacity := by
  unfold LRUCache.put
  have hle := eraseKey_length_le s.cache k
  by_cases hc : ((eraseKey s.cache k ++ [(k, v)]).length : ℤ) > s.capacity
  · simp only [hc, if_pos]
    simp only [List.length_tail, List.length_append, List.length_singleton]
    push_cast
    omega
  · simp only [hc, if_neg, not_false_iff]
    omega

theorem applyOp_capacity (s : LRUCache) (o : Op) : (applyOp s o).capacity = s.capacity := by
  cases o with
  | put k v => rfl
  | get k =>
      simp only [applyOp, LRUCache.get]
      cases lookupKey s.cache k <;> rfl

theorem applyOp_length (s : LRUCache) (o : Op)
    (h : (s.cache.length : ℤ) ≤ s.capacity) :
    (((applyOp s o).cache.length : ℤ)) ≤ s.capacity := by
  cases o with
  | put k v => exact put_cache_length s k v h
  | get k => simpa [applyOp, get_cache_length] using h

theorem applyOps_length (ops : List Op) (s : LRUCache)
    (h : (s.cache.length : ℤ) ≤ s.capacity) :
    (((applyOps s ops).cache.length : ℤ)) ≤ (applyOps s ops).capacity := by
  induction ops generalizing s with
  | nil => simpa [applyOps] using h
  | cons o rest ih =>
      have hcap := applyOp_capacity s o
      have hstep := applyOp_length s o h
      have := ih (applyOp s o) (by rw [hcap]; exact hstep)
      simpa [applyOps, List.foldl_cons] using this

theorem applyOps_capacity (ops : List Op) (s : LRUCache) :
    (applyOps s ops).capacity = s.capacity := by
  induction ops generalizing s with
  | nil => rfl
  | cons o rest ih =>
      simp only [applyOps, List.foldl_cons]
      rw [show List.foldl applyOp (applyOp s o) rest = applyOps (applyOp s o) rest from rfl]
      rw [ih, applyOp_capacity]

theorem get_of_not_contains (s : LRUCache) (k : Key)
    (h : containsKey s.cache k = false) : s.get k = (-1, s) := by
  unfold LRUCache.get
  rw [(containsKey_false_iff s.cache k).mp h]

theorem get_of_lookup (s : LRUCache) (k : Key) (v : ℤ)
    (h : lookupKey s.cache k = some v) :
    s.get k = (v, { s with cache := eraseKey s.cache k ++ [(k, v)] }) := by
  unfold LRUCache.get
  rw [h]

theorem put_evicts_head (s : LRUCache) (k : Key) (v : ℤ)
    (hk : containsKey s.cache k = false)
    (hfull : (s.cache.length : ℤ) = s.capacity)
    (_hpos : 0 < s.capacity) :
    (s.put k v).cache = (s.cache ++ [(k, v)]).tail := by
  unfold LRUCache.put
  rw [eraseKey_of_not_contains s.cache k hk]
  have : ((s.cache ++ [(k, v)]).length : ℤ) > s.capacity := by
    simp only [List.length_append, List.length_singleton]
    push_cast
    omega
  simp only [this, if_pos]

/- The invalidation loop of `update_with_cache`, reduced to a filter. -/

theorem eraseKey_cons_ne (e : Key × ℤ) (xs : Entries) (k : Key) (h : k ≠ e.1) :
    eraseKey (e :: xs) k = e :: eraseKey xs k := by
  have he : ¬ (e.1 = k) := fun hh => h hh.symm
  simp [eraseKey, he]

theorem foldl_eraseKey_cons (ks : List Key) (e : Key × ℤ) (xs : Entries)
    (h : ∀ k ∈ ks, k ≠ e.1) :
    List.foldl eraseKey (e :: xs) ks = e :: List.foldl eraseKey xs ks := by
  induction ks generalizing xs with
  | nil => rfl
  | cons k rest ih =>
      simp only [List.foldl_cons]
      rw [eraseKey_cons_ne e xs k (h k (by simp))]
      exact ih (eraseKey xs k) (fun k' hk' => h k' (by simp [hk']))

theorem deleteKeys_eq_foldl (xs : Entries) (ks : List Key) :
    deleteKeys xs ks = List.foldl eraseKey xs ks := by
  unfold deleteKeys
  congr 1
  funext acc k
  by_cases h : containsKey acc k = true
  · simp [h]
  · simp only [Bool.not_eq_true] at h
    simp [h, eraseKey_of_not_contains acc k h]

theorem keysToInvalidate_subset_keys (xs : Entries) (i : ℤ) :
    ∀ k ∈ keysToInvalidate xs i, k ∈ xs.map Prod.fst := by
  intro k hk
  unfold keysToInvalidate at hk
  rcases List.mem_map.mp hk with ⟨e, he, rfl⟩
  exact List.mem_map.mpr ⟨e, List.mem_of_mem_filter he, rfl⟩

theorem invalidate_eq_filter (xs : Entries) (i : ℤ)
    (h : (xs.map Prod.fst).Nodup) :
    deleteKeys xs (keysToInvalidate xs i) =
      xs.filter (fun e => !(decide (e.1.1 ≤ i ∧ i ≤ e.1.2))) := by
  rw [deleteKeys_eq_foldl]
  induction xs with
  | nil => rfl
  | cons e rest ih =>
      simp only [List.map_cons, List.nodup_cons] at h
      by_cases hp : (e.1.1 ≤ i ∧ i ≤ e.1.2)
      · have hk : keysToInvalidate (e :: rest) i = e.1 :: keysToInvalidate rest i := by
          simp [keysToInvalidate, hp]
        rw [hk]
        simp only [List.foldl_cons]
        rw [show eraseKey (e :: rest) e.1 = rest by simp [eraseKey]]
        rw [ih h.2]
        simp [List.filter_cons, hp]
      · have hk : keysToInvalidate (e :: rest) i = keysToInvalidate rest i := by
          simp [keysToInvalidate, hp]
        rw [hk]
        rw [foldl_eraseKey_cons _ e rest
          (fun k hkmem => by
            intro hke
            exact h.1 (hke ▸ keysToInvalidate_subset_keys rest i k hkmem))]
        rw [ih h.2]
        simp only [List.filter_cons]
        have hcond : (!(decide (e.1.1 ≤ i ∧ i ≤ e.1.2))) = true := by simp [hp]
        rw [if_pos hcond]

theorem update_with_cache_spec (array : List ℤ) (index value : ℤ) (s : LRUCache)
    (h1 : -(array.length : ℤ) ≤ index) (h2 : index < (array.length : ℤ))
    (hnd : (s.cache.map Prod.fst).Nodup) :
    update_with_cache array index value s =
      some (array.set (if index < 0 then ((array.length : ℤ) + index).toNat else index.toNat) value,
            { s with cache := s.cache.filter (fun e => !(decide (e.1.1 ≤ index ∧ index ≤ e.1.2))) }) := by
  have hset : pySetItem array index value =
      some (array.set (if index < 0 then ((array.length : ℤ) + index).toNat else index.toNat) value) := by
    unfold pySetItem
    rw [if_pos ⟨h1, h2⟩]
  unfold update_with_cache
  rw [hset]
  dsimp only
  rw [invalidate_eq_filter s.cache index hnd]

end Task1

namespace Task2

/-- A splay-tree node of `task_2.py`: key, value and the two owning child
links. The `parent` back-reference of the Python `Node` is not part of the
owning structure; it is represented by the zipper context `List Frame` below,
which records the chain of ancestors of the node currently in hand. -/
inductive Tree where
  | nil
  | node (left : Tree) (key : ℤ) (value : ℤ) (right : Tree)
deriving Repr, DecidableEq

/-- One step of parent information for a node held in hand:
`Frame.left key value sib` means the node is the *left* child of a parent
carrying `key`/`value` whose right child is `sib`; `Frame.right` mirrors it.
A `List Frame` (innermost parent first) is exactly the information carried by
the chain of `parent` pointers from a node up to the root. -/
inductive Frame where
  | left (key : ℤ) (value : ℤ) (sib : Tree)
  | right (key : ℤ) (value : ℤ) (sib : Tree)
deriving Repr, DecidableEq

/-- Rebuild the whole tree from a subtree in hand and its context. -/
def plug : Tree → List Frame → Tree
  | t, [] => t
  | t, Frame.left pk pv sib :: rest => plug (Tree.node t pk pv sib) rest
  | t, Frame.right pk pv sib :: rest => plug (Tree.node sib pk pv t) rest

/-- `SplayTree._left_rotate` as a transformation of the rotated subtree
(`x` with its right child `y`): `x.right = y.left; y.left = x`, the
reattachment of the result into `x`'s parent being the unchanged context. -/
def leftRotate : Tree → Tree
  | Tree.node a k v (Tree.node b k2 v2 c) => Tree.node (Tree.node a k v b) k2 v2 c
  | t => t

/-- `SplayTree._right_rotate` as a transformation of the rotated subtree. -/
def rightRotate : Tree → Tree
  | Tree.node (Tree.node a k1 v1 b) k v c => Tree.node a k1 v1 (Tree.node b k v c)
  | t => t

/-- `SplayTree._splay`: bring the node in hand (with children `a`, `b`) to the
root. Each arm is the composite of the rotations performed by the matching
branch of the source's `while` loop:
* one `Frame.left` remaining (node is left child of the root): Zig,
  `_right_rotate(parent)`;
* one `Frame.right` remaining: Zig, `_left_rotate(parent)`;
* `Frame.left` under `Frame.left` (node and parent both left children):
  Zig-Zig, `_right_rotate(grandparent)` then `_right_rotate(parent)`;
* `Frame.right` under `Frame.right`: Zig-Zig, `_left_rotate(grandparent)`
  then `_left_rotate(parent)`;
* `Frame.right` under `Frame.left` (node right child, parent left child):
  Zig-Zag, `_left_rotate(parent)` then `_right_rotate(new parent)`;
* `Frame.left` under `Frame.right`: Zig-Zag, `_right_rotate(parent)` then
  `_left_rotate(new parent)`. -/
def splay : Tree → List Frame → Tree
  | t, [] => t
  | Tree.node a k v b, [Frame.left pk pv c] =>
      Tree.node a k v (Tree.node b pk pv c)
  | Tree.node a k v b, [Frame.right pk pv c] =>
      Tree.node (Tree.node c pk pv a) k v b
  | Tree.node a k v b, Frame.left pk pv c :: Frame.left gk gv d :: rest =>
      splay (Tree.node a k v (Tree.node b pk pv (Tree.node c gk gv d))) rest
  | Tree.node a k v b, Frame.right pk pv c :: Frame.right gk gv d :: rest =>
      splay (Tree.node (Tree.node (Tree.node d gk gv c) pk pv a) k v b) rest
  | Tree.node a k v b, Frame.right pk pv c :: Frame.left gk gv d :: rest =>
      splay (Tree.node (Tree.node c pk pv a) k v (Tree.node b gk gv d)) rest
  | Tree.node a k v b, Frame.left pk pv c :: Frame.right gk gv d :: rest =>
      splay (Tree.node (Tree.node d gk gv a) k v (Tree.node b pk pv c)) rest
  | Tree.nil, _ => Tree.nil

/-- The descent loop of `SplayTree.find`, carrying the context of the current
node. On a hit it returns the value together with the tree after splaying the
found node; on a miss (`nil` reached) it returns `none` and the source leaves
the tree untouched. -/
def findAux (k : ℤ) : Tree → List Frame → Option (ℤ × Tree)
  | Tree.nil, _ => none
  | Tree.node l key v r, ctx =>
      if k = key then some (v, splay (Tree.node l key v r) ctx)
      else if k < key then findAux k l (Frame.left key v r :: ctx)
      else findAux k r (Frame.right key v l :: ctx)

/-- `SplayTree.find`: returns the found value (or `none`) and the tree after
the call (unchanged on a miss). -/
def find (t : Tree) (k : ℤ) : Option ℤ × Tree :=
  match findAux k t [] with
  | none => (none, t)
  | some (v, t2) => (some v, t2)

/-- The descent loop of `SplayTree.insert` on a non-empty tree: go left on
`k` strictly smaller, right on strictly greater; on an equal key overwrite the
value and splay the existing node; on reaching `nil` attach the new node there
(left of the parent precisely when `k` is smaller, as in the source) and splay
it. -/
def insertAux (k v : ℤ) : Tree → List Frame → Tree
  | Tree.nil, ctx => splay (Tree.node Tree.nil k v Tree.nil) ctx
  | Tree.node l key val r, ctx =>
      if k < key then insertAux k v l (Frame.left key val r :: ctx)
      else if k > key then insertAux k v r (Frame.right key val l :: ctx)
      else splay (Tree.node l key v r) ctx

/-- `SplayTree.insert`: an empty tree just receives the new node as root
(the source returns before splaying in that case). -/
def insert (t : Tree) (k v : ℤ) : Tree :=
  match t with
  | Tree.nil => Tree.node Tree.nil k v Tree.nil
  | Tree.node l key val r => insertAux k v (Tree.node l key val r) []

/-- In-order traversal of the key/value pairs. -/
def pairs : Tree → List (ℤ × ℤ)
  | Tree.nil => []
  | Tree.node l k v r => pairs l ++ [(k, v)] ++ pairs r

/-- In-order key list. -/
def keys : Tree → List ℤ
  | Tree.nil => []
  | Tree.node l k _ r => keys l ++ [k] ++ keys r

/-- Key at the root (`self.root.key`), if any. -/
def rootKey : Tree → Option ℤ
  | Tree.nil => none
  | Tree.node _ k _ _ => some k

/-- One client operation on the splay tree. -/
inductive SOp where
  | insert (k : ℤ) (v : ℤ)
  | find (k : ℤ)
deriving Repr, DecidableEq

/-- Apply one operation (discarding `find`'s returned value). -/
def applySOp (t : Tree) (o : SOp) : Tree :=
  match o with
  | SOp.insert k v => insert t k v
  | SOp.find k => (find t k).2

/-- Apply a sequence of operations in order. -/
def applySOps (t : Tree) (ops : List SOp) : Tree :=
  ops.foldl applySOp t

/-- `fibonacci_lru` from `task_2.py`: the memoization decorator does not
change the computed function, which is the plain double recursion
(`n` itself below 2, else the sum of the two predecessors). -/
def fibonacci_lru (n : ℤ) : ℤ :=
  if n < 2 then n
  else fibonacci_lru (n - 1) + fibonacci_lru (n - 2)
termination_by n.toNat
decreasing_by
all_goals omega

/-- `fibonacci_splay` from `task_2.py`: look `n` up in the tree; on a hit
return the stored value, otherwise recurse on `n-1` then `n-2` (threading the
tree, which the source mutates in place), store the sum under `n` and return
it. -/
def fibonacci_splay (n : ℤ) (tree : Tree) : ℤ × Tree :=
  if n < 2 then (n, tree)
  else
    match find tree n with
    | (some v, t1) => (v, t1)
    | (none, _) =>
        let p1 := fibonacci_splay (n - 1) tree
        let p2 := fibonacci_splay (n - 2) p1.2
        let result := p1.1 + p2.1
        (result, insert p2.2 n result)
termination_by n.toNat
decreasing_by
all_goals omega

/-- Key and value at the root, if any. -/
def rootKV : Tree → Option (ℤ × ℤ)
  | Tree.nil => none
  | Tree.node _ k v _ => some (k, v)

/-- Splaying never changes the key/value of the node being splayed: it only
moves that node to the root. -/
theorem rootKV_splay (t : Tree) (ctx : List Frame) : rootKV (splay t ctx) = rootKV t := by
  induction t, ctx using splay.induct with
  | case1 t => simp [splay]
  | case2 a k v b pk pv c => simp [splay, rootKV]
  | case3 a k v b pk pv c => simp [splay, rootKV]
  | case4 a k v b pk pv c gk gv d rest ih =>
      simp only [splay]
      simpa [rootKV] using ih
  | case5 a k v b pk pv c gk gv d rest ih =>
      simp only [splay]
      simpa [rootKV] using ih
  | case6 a k v b pk pv c gk gv d rest ih =>
      simp only [splay]
      simpa [rootKV] using ih
  | case7 a k v b pk pv c gk gv d rest ih =>
      simp only [splay]
      simpa [rootKV] using ih
  | case8 ctx => simp [splay]

/-- The key/value pairs contributed by a context strictly to the left of the
node in hand, in in-order position. -/
def ctxL : List Frame → List (ℤ × ℤ)
  | [] => []
  | Frame.left _ _ _ :: rest => ctxL rest
  | Frame.right pk pv sib :: rest => ctxL rest ++ pairs sib ++ [(pk, pv)]

/-- The key/value pairs contributed by a context strictly to the right of the
node in hand, in in-order position. -/
def ctxR : List Frame → List (ℤ × ℤ)
  | [] => []
  | Frame.left pk pv sib :: rest => (pk, pv) :: pairs sib ++ ctxR rest
  | Frame.right _ _ _ :: rest => ctxR rest

theorem pairs_plug (ctx : List Frame) : ∀ t : Tree,
    pairs (plug t ctx) = ctxL ctx ++ pairs t ++ ctxR ctx := by
  induction ctx with
  | nil => intro t; simp [plug, ctxL, ctxR]
  | cons f rest ih =>
      intro t
      cases f with
      | left pk pv sib =>
          simp only [plug, ih (Tree.node t pk pv sib), pairs, ctxL, ctxR]
          simp [List.append_assoc]
      | right pk pv sib =>
          simp only [plug, ih (Tree.node sib pk pv t), pairs, ctxL, ctxR]
          simp [List.append_assoc]

/-- Splaying a (real) node preserves the in-order traversal of the whole
tree: the result's pairs are exactly those of the tree reassembled from the
node and its context. This is BST-order preservation of every rotation
pattern, stated once for the full splay loop. -/
theorem pairs_splay (t : Tree) (ctx : List Frame) :
    t ≠ Tree.nil → pairs (splay t ctx) = ctxL ctx ++ pairs t ++ ctxR ctx := by
  induction t, ctx using splay.induct with
  | case1 t => intro h; simp [splay, ctxL, ctxR]
  | case2 a k v b pk pv c => intro h; simp [splay, ctxL, ctxR, pairs]
  | case3 a k v b pk pv c => intro h; simp [splay, ctxL, ctxR, pairs]
  | case4 a k v b pk pv c gk gv d rest ih =>
      intro h
      simp only [splay]
      rw [ih (by simp)]
      simp [ctxL, ctxR, pairs, List.append_assoc]
  | case5 a k v b pk pv c gk gv d rest ih =>
      intro h
      simp only [splay]
      rw [ih (by simp)]
      simp [ctxL, ctxR, pairs, List.append_assoc]
  | case6 a k v b pk pv c gk gv d rest ih =>
      intro h
      simp only [splay]
      rw [ih (by simp)]
      simp [ctxL, ctxR, pairs, List.append_assoc]
  | case7 a k v b pk pv c gk gv d rest ih =>
      intro h
      simp only [splay]
      rw [ih (by simp)]
      simp [ctxL, ctxR, pairs, List.append_assoc]
  | case8 ctx => intro h; exact absurd rfl h

theorem keys_eq_pairs_map (t : Tree) : keys t = (pairs t).map Prod.fst := by
  induction t with
  | nil => rfl
  | node l k v r ihl ihr => simp [keys, pairs, ihl, ihr]


theorem findAux_none_of_not_mem (k : ℤ) (t : Tree) (h : k ∉ keys t) :
    ∀ ctx, findAux k t ctx = none := by
  induction t with
  | nil => intro ctx; rfl
  | node l key v r ihl ihr =>
      intro ctx
      simp only [keys, List.mem_append, List.mem_singleton] at h
      push_neg at h
      obtain ⟨⟨hl, hkey⟩, hr⟩ := h
      simp only [findAux, hkey, if_neg, if_false]
      split
      · exact ihl hl _
      · exact ihr hr _

theorem findAux_some_spec (k : ℤ) (t : Tree) : ∀ ctx v t2,
    findAux k t ctx = some (v, t2) →
    (k, v) ∈ pairs t ∧ rootKV t2 = some (k, v) ∧
      pairs t2 = ctxL ctx ++ pairs t ++ ctxR ctx := by
  induction t with
  | nil => intro ctx v t2 h; simp [findAux] at h
  | node l key vv r ihl ihr =>
      intro ctx v t2 h
      by_cases hk : k = key
      · subst hk
        simp only [findAux, if_pos, Option.some.injEq, Prod.mk.injEq, ite_true,
          eq_self_iff_true, true_and] at h
        obtain ⟨hv, ht2⟩ := h
        subst hv
        subst ht2
        refine ⟨by simp [pairs], ?_, ?_⟩
        · rw [rootKV_splay]
          rfl
        · exact pairs_splay _ ctx (by simp)
      · by_cases hlt : k < key
        · simp only [findAux, hk, if_false, hlt, if_true, if_pos] at h
          obtain ⟨h1, h2, h3⟩ := ihl _ _ _ h
          refine ⟨by simp [pairs, h1], h2, ?_⟩
          rw [h3]
          simp [ctxL, ctxR, pairs, List.append_assoc]
        · simp only [findAux, hk, hlt, if_false] at h
          obtain ⟨h1, h2, h3⟩ := ihr _ _ _ h
          refine ⟨by simp [pairs, h1], h2, ?_⟩
          rw [h3]
          simp [ctxL, ctxR, pairs, List.append_assoc]

end Task2

namespace Task2

theorem find_of_not_mem (t : Tree) (k : ℤ) (h : k ∉ keys t) : find t k = (none, t) := by
  simp [find, findAux_none_of_not_mem k t h []]

theorem find_pairs (t : Tree) (k : ℤ) : pairs (find t k).2 = pairs t := by
  unfold find
  cases h : findAux k t [] with
  | none => rfl
  | some p =>
      obtain ⟨v, t2⟩ := p
      obtain ⟨_, _, h3⟩ := findAux_some_spec k t [] v t2 h
      simpa [ctxL, ctxR] using h3

theorem find_some_spec (t : Tree) (k : ℤ) (v : ℤ) (h : (find t k).1 = some v) :
    (k, v) ∈ pairs t ∧ rootKV (find t k).2 = some (k, v) := by
  unfold find at h ⊢
  cases hf : findAux k t [] with
  | none => rw [hf] at h; simp at h
  | some p =>
      obtain ⟨v', t2⟩ := p
      rw [hf] at h
      simp at h
      obtain ⟨h1, h2, _⟩ := findAux_some_spec k t [] v' t2 hf
      subst h
      exact ⟨h1, by simpa using h2⟩

theorem find_root_hit (t : Tree) (k v : ℤ) (h : rootKV t = some (k, v)) :
    find t k = (some v, t) := by
  cases t with
  | nil => simp [rootKV] at h
  | node l key vv r =>
      simp only [rootKV, Option.some.injEq, Prod.mk.injEq] at h
      obtain ⟨hk, hv⟩ := h
      subst hk
      subst hv
      simp [find, findAux, splay]

theorem find_idem (t : Tree) (k : ℤ) :
    (find (find t k).2 k).2 = (find t k).2 := by
  cases hf : findAux k t [] with
  | none =>
      have h1 : find t k = (none, t) := by simp [find, hf]
      rw [h1]
      rw [h1]
  | some p =>
      obtain ⟨v, t2⟩ := p
      have h1 : find t k = (some v, t2) := by simp [find, hf]
      obtain ⟨_, h2, _⟩ := findAux_some_spec k t [] v t2 hf
      rw [h1]
      rw [find_root_hit t2 k v h2]

theorem insertAux_rootKV (k v : ℤ) (t : Tree) : ∀ ctx,
    rootKV (insertAux k v t ctx) = some (k, v) := by
  induction t with
  | nil => intro ctx; rw [insertAux, rootKV_splay]; rfl
  | node l key vv r ihl ihr =>
      intro ctx
      by_cases hlt : k < key
      · simp only [insertAux, if_pos hlt]
        exact ihl _
      · by_cases hgt : k > key
        · simp only [insertAux, if_neg hlt, if_pos hgt]
          exact ihr _
        · have hk : k = key := by omega
          subst hk
          simp only [insertAux, if_neg hlt, if_neg hgt]
          rw [rootKV_splay]
          rfl

theorem insert_rootKV (t : Tree) (k v : ℤ) : rootKV (insert t k v) = some (k, v) := by
  cases t with
  | nil => rfl
  | node l key vv r => exact insertAux_rootKV k v (Tree.node l key vv r) []

theorem insertAux_pairs_sub (k v : ℤ) (t : Tree) : ∀ ctx p,
    p ∈ pairs (insertAux k v t ctx) →
    p = (k, v) ∨ p ∈ pairs t ∨ p ∈ ctxL ctx ∨ p ∈ ctxR ctx := by
  induction t with
  | nil =>
      intro ctx p hp
      rw [insertAux, pairs_splay _ ctx (by simp)] at hp
      simp only [pairs, List.append_nil, List.nil_append, List.mem_append,
        List.mem_singleton] at hp
      tauto
  | node l key vv r ihl ihr =>
      intro ctx p hp
      by_cases hlt : k < key
      · rw [insertAux, if_pos hlt] at hp
        rcases ihl _ p hp with h | h | h | h
        · exact Or.inl h
        · exact Or.inr (Or.inl (by simp [pairs, h]))
        · exact Or.inr (Or.inr (Or.inl (by simpa [ctxL] using h)))
        · simp only [ctxR, List.mem_cons, List.mem_append] at h
          simp only [pairs, List.mem_append, List.mem_singleton]
          tauto
      · by_cases hgt : k > key
        · rw [insertAux, if_neg hlt, if_pos hgt] at hp
          rcases ihr _ p hp with h | h | h | h
          · exact Or.inl h
          · exact Or.inr (Or.inl (by simp [pairs, h]))
          · simp only [ctxL, List.mem_append, List.mem_singleton] at h
            simp only [pairs, List.mem_append, List.mem_singleton]
            tauto
          · exact Or.inr (Or.inr (Or.inr (by simpa [ctxR] using h)))
        · have hk : k = key := by omega
          subst hk
          rw [insertAux, if_neg hlt, if_neg hgt, pairs_splay _ ctx (by simp)] at hp
          simp only [pairs, List.mem_append, List.mem_singleton] at hp ⊢
          tauto

theorem insert_pairs_sub (t : Tree) (k v : ℤ) (p : ℤ × ℤ)
    (hp : p ∈ pairs (insert t k v)) : p = (k, v) ∨ p ∈ pairs t := by
  cases t with
  | nil => simp [insert, pairs] at hp; simp [hp]
  | node l key vv r =>
      rcases insertAux_pairs_sub k v (Tree.node l key vv r) [] p hp with h | h | h | h
      · exact Or.inl h
      · exact Or.inr h
      · simp [ctxL] at h
      · simp [ctxR] at h

/-- Keys contributed by the context to the left of the node in hand. -/
def kL (ctx : List Frame) : List ℤ :=
  (ctxL ctx).map Prod.fst

/-- Keys contributed by the context to the right of the node in hand. -/
def kR (ctx : List Frame) : List ℤ :=
  (ctxR ctx).map Prod.fst

theorem kL_left (pk pv : ℤ) (sib : Tree) (rest : List Frame) :
    kL (Frame.left pk pv sib :: rest) = kL rest := rfl

theorem kL_right (pk pv : ℤ) (sib : Tree) (rest : List Frame) :
    kL (Frame.right pk pv sib :: rest) = kL rest ++ keys sib ++ [pk] := by
  simp [kL, ctxL, keys_eq_pairs_map]

theorem kR_left (pk pv : ℤ) (sib : Tree) (rest : List Frame) :
    kR (Frame.left pk pv sib :: rest) = pk :: (keys sib ++ kR rest) := by
  simp [kR, ctxR, keys_eq_pairs_map]

theorem kR_right (pk pv : ℤ) (sib : Tree) (rest : List Frame) :
    kR (Frame.right pk pv sib :: rest) = kR rest := rfl

theorem keys_splay (t : Tree) (ctx : List Frame) (h : t ≠ Tree.nil) :
    keys (splay t ctx) = kL ctx ++ keys t ++ kR ctx := by
  rw [keys_eq_pairs_map, pairs_splay t ctx h]
  simp [kL, kR, keys_eq_pairs_map]

theorem keys_plug (ctx : List Frame) (t : Tree) :
    keys (plug t ctx) = kL ctx ++ keys t ++ kR ctx := by
  rw [keys_eq_pairs_map, pairs_plug ctx t]
  simp [kL, kR, keys_eq_pairs_map]

theorem insertAux_chain (k v : ℤ) (t : Tree) : ∀ ctx,
    List.Chain' (· < ·) (kL ctx ++ keys t ++ kR ctx) →
    (∀ x ∈ (kL ctx).getLast?, x < k) →
    (∀ y ∈ (kR ctx).head?, k < y) →
    List.Chain' (· < ·) (keys (insertAux k v t ctx)) := by
  induction t with
  | nil =>
      intro ctx h hlast hhead
      rw [insertAux, keys_splay _ ctx (by simp)]
      simp only [keys, List.append_nil, List.nil_append] at h ⊢
      rw [List.append_assoc, List.chain'_append]
      rw [List.chain'_append] at h
      obtain ⟨hL, hR, hcross⟩ := h
      refine ⟨hL, ?_, ?_⟩
      · rw [List.singleton_append, List.chain'_cons']
        exact ⟨hhead, hR⟩
      · intro x hx y hy
        rw [List.singleton_append, List.head?_cons] at hy
        simp only [Option.mem_def, Option.some.injEq] at hy
        subst hy
        exact hlast x hx
  | node l key vv r ihl ihr =>
      intro ctx h hlast hhead
      by_cases hlt : k < key
      · rw [insertAux, if_pos hlt]
        apply ihl (Frame.left key vv r :: ctx)
        · rw [kL_left, kR_left]
          simp only [keys, List.append_assoc, List.singleton_append] at h ⊢
          exact h
        · exact hlast
        · intro y hy
          rw [kR_left, List.head?_cons] at hy
          simp only [Option.mem_def, Option.some.injEq] at hy
          omega
      · by_cases hgt : k > key
        · rw [insertAux, if_neg hlt, if_pos hgt]
          apply ihr (Frame.right key vv l :: ctx)
          · rw [kL_right, kR_right]
            simp only [keys, List.append_assoc, List.singleton_append] at h ⊢
            exact h
          · intro x hx
            rw [kL_right,
              show kL ctx ++ keys l ++ [key] = (kL ctx ++ keys l) ++ [key] by
                simp [List.append_assoc],
              List.getLast?_concat] at hx
            simp only [Option.mem_def, Option.some.injEq] at hx
            omega
          · exact hhead
        · have hk : k = key := by omega
          subst hk
          rw [insertAux, if_neg hlt, if_neg hgt, keys_splay _ ctx (by simp)]
          simpa [keys] using h


theorem insert_chain (t : Tree) (k v : ℤ) (h : List.Chain' (· < ·) (keys t)) :
    List.Chain' (· < ·) (keys (insert t k v)) := by
  cases t with
  | nil => simp [insert, keys]
  | node l key vv r =>
      apply insertAux_chain k v (Tree.node l key vv r) []
      · simpa [kL, kR, ctxL, ctxR] using h
      · simp [kL, ctxL]
      · simp [kR, ctxR]

theorem find_keys (t : Tree) (k : ℤ) : keys (find t k).2 = keys t := by
  rw [keys_eq_pairs_map, find_pairs, ← keys_eq_pairs_map]

theorem applySOps_chain (ops : List SOp) : ∀ t : Tree,
    List.Chain' (· < ·) (keys t) →
    List.Chain' (· < ·) (keys (applySOps t ops)) := by
  induction ops with
  | nil => intro t h; simpa [applySOps] using h
  | cons o rest ih =>
      intro t h
      have hstep : List.Chain' (· < ·) (keys (applySOp t o)) := by
        cases o with
        | insert k v => exact insert_chain t k v h
        | find k => simpa [applySOp, find_keys] using h
      simpa [applySOps, List.foldl_cons] using ih (applySOp t o) hstep

theorem pairs_leftRotate (t : Tree) : pairs (leftRotate t) = pairs t := by
  cases t with
  | nil => rfl
  | node a k v r =>
      cases r with
      | nil => rfl
      | node b k2 v2 c => simp [leftRotate, pairs, List.append_assoc]

theorem pairs_rightRotate (t : Tree) : pairs (rightRotate t) = pairs t := by
  cases t with
  | nil => rfl
  | node l k v c =>
      cases l with
      | nil => rfl
      | node a k1 v1 b => simp [rightRotate, pairs, List.append_assoc]

theorem keys_plug_leftRotate (t : Tree) (ctx : List Frame) :
    keys (plug (leftRotate t) ctx) = keys (plug t ctx) := by
  rw [keys_plug, keys_plug, keys_eq_pairs_map, keys_eq_pairs_map, pairs_leftRotate]

theorem keys_plug_rightRotate (t : Tree) (ctx : List Frame) :
    keys (plug (rightRotate t) ctx) = keys (plug t ctx) := by
  rw [keys_plug, keys_plug, keys_eq_pairs_map, keys_eq_pairs_map, pairs_rightRotate]

/-- A memo tree is good when every stored pair is a correct Fibonacci value. -/
def Good (t : Tree) : Prop :=
  ∀ p ∈ pairs t, p.2 = fibonacci_lru p.1

theorem fibonacci_lru_lt2 (n : ℤ) (h : n < 2) : fibonacci_lru n = n := by
  rw [fibonacci_lru]
  simp [h]

theorem fibonacci_lru_ge2 (n : ℤ) (h : ¬ n < 2) :
    fibonacci_lru n = fibonacci_lru (n - 1) + fibonacci_lru (n - 2) := by
  rw [fibonacci_lru]
  simp [h]

theorem good_find (t : Tree) (k : ℤ) (hg : Good t) : Good (find t k).2 := by
  intro p hp
  exact hg p (by rwa [find_pairs] at hp)

theorem find_good_value (t : Tree) (k v : ℤ) (hg : Good t)
    (h : (find t k).1 = some v) : v = fibonacci_lru k := by
  obtain ⟨hmem, _⟩ := find_some_spec t k v h
  exact hg (k, v) hmem

theorem good_insert (t : Tree) (k : ℤ) (hg : Good t) :
    Good (insert t k (fibonacci_lru k)) := by
  intro p hp
  rcases insert_pairs_sub t k (fibonacci_lru k) p hp with h | h
  · rw [h]
  · exact hg p h

theorem fibonacci_splay_spec : ∀ (m : ℕ) (n : ℤ), n.toNat ≤ m → ∀ t : Tree, Good t →
    (fibonacci_splay n t).1 = fibonacci_lru n ∧ Good (fibonacci_splay n t).2 := by
  intro m
  induction m with
  | zero =>
      intro n hn t hg
      have h2 : n < 2 := by omega
      rw [fibonacci_splay, if_pos h2]
      exact ⟨(fibonacci_lru_lt2 n h2).symm, hg⟩
  | succ m ih =>
      intro n hn t hg
      by_cases h2 : n < 2
      · rw [fibonacci_splay, if_pos h2]
        exact ⟨(fibonacci_lru_lt2 n h2).symm, hg⟩
      · rw [fibonacci_splay, if_neg h2]
        cases hf : find t n with
        | mk ov t1 =>
            cases ov with
            | some v =>
                dsimp only
                have hv : v = fibonacci_lru n := find_good_value t n v hg (by rw [hf])
                refine ⟨hv, ?_⟩
                have := good_find t n hg
                rwa [hf] at this
            | none =>
                dsimp only
                obtain ⟨ih1a, ih1b⟩ := ih (n - 1) (by omega) t hg
                obtain ⟨ih2a, ih2b⟩ := ih (n - 2) (by omega) _ ih1b
                have hres : (fibonacci_splay (n - 1) t).1 + (fibonacci_splay (n - 2) (fibonacci_splay (n - 1) t).2).1 = fibonacci_lru n := by
                  rw [ih1a, ih2a, ← fibonacci_lru_ge2 n h2]
                refine ⟨hres, ?_⟩
                show Good (insert (fibonacci_splay (n - 2) (fibonacci_splay (n - 1) t).2).2 n
                  ((fibonacci_splay (n - 1) t).1 + (fibonacci_splay (n - 2) (fibonacci_splay (n - 1) t).2).1))
                rw [hres]
                exact good_insert _ n ih2b

theorem fibonacci_lru_eq_fib : ∀ n : ℕ, fibonacci_lru (n : ℤ) = Nat.fib n := by
  intro n
  induction n using Nat.strong_induction_on with
  | _ n ih =>
      match n with
      | 0 => rw [fibonacci_lru_lt2 _ (by norm_num)]; simp
      | 1 => rw [fibonacci_lru_lt2 _ (by norm_num)]; simp
      | (m + 2) =>
          rw [fibonacci_lru_ge2 _ (by push_cast; omega)]
          have e1 : ((m : ℤ) + 2) - 1 = ((m + 1 : ℕ) : ℤ) := by push_cast; ring
          have e2 : ((m : ℤ) + 2) - 2 = ((m : ℕ) : ℤ) := by ring
          push_cast
          rw [e1, e2, ih (m + 1) (by omega), ih m (by omega), Nat.fib_add_two]
          push_cast
          ring

end Task2

namespace Task2

theorem rootKey_of_rootKV (t : Tree) (k v : ℤ) (h : rootKV t = some (k, v)) :
    rootKey t = some k := by
  cases t with
  | nil => simp [rootKV] at h
  | node l key vv r =>
      simp only [rootKV, Option.some.injEq, Prod.mk.injEq] at h
      simp [rootKey, h.1]

theorem good_nil : Good Tree.nil := by
  intro p hp
  simp [pairs] at hp

end Task2

/-!
## The specification claims
-/

/-- Claim C1, as stated, is false on the code: `LRUCache.__init__` performs no
validation whatsoever, so constructing with the non-positive capacity `0` is
not rejected — it produces a perfectly usable cache instance with capacity `0`
(every `put` immediately evicts, leaving the dict empty). -/
theorem claim_C1_counterexample :
    Task1.LRUCache.init 0 = { cache := [], capacity := 0 } ∧
    ((Task1.LRUCache.init 0).put ((0 : ℤ), (0 : ℤ)) 5).cache = [] := by
  constructor
  · rfl
  · decide

/-- Claim C1 (amended): the constructor performs no capacity validation; for
every capacity — positive or not — construction succeeds, producing an empty
cache with that capacity stored verbatim. -/
theorem claim_C1 : ∀ c : ℤ,
    (Task1.LRUCache.init c).capacity = c ∧ (Task1.LRUCache.init c).cache = [] := by
  intro c
  exact ⟨rfl, rfl⟩

/-- Claim C2: for every sequence of `put`/`get` operations on a cache built
with positive capacity `C`, the number of stored entries never exceeds `C`
(stated for the final state of an arbitrary sequence, hence for every
intermediate state as well, each being final for some prefix). -/
theorem claim_C2 (C : ℤ) (ops : List Task1.Op) (hC : 0 < C) :
    ((Task1.applyOps (Task1.LRUCache.init C) ops).cache.length : ℤ) ≤ C := by
  have h0 : (((Task1.LRUCache.init C).cache.length : ℤ)) ≤ (Task1.LRUCache.init C).capacity := by
    simp [Task1.LRUCache.init]
    omega
  have h := Task1.applyOps_length ops (Task1.LRUCache.init C) h0
  rwa [Task1.applyOps_capacity] at h

theorem claim_C2_witness :
    (0 : ℤ) < 2 ∧
    ((Task1.applyOps (Task1.LRUCache.init 2)
      [Task1.Op.put (0, 0) 1, Task1.Op.put (1, 1) 2,
       Task1.Op.put (2, 2) 3]).cache.length : ℤ) ≤ 2 :=
  ⟨by decide,
   claim_C2 2 [Task1.Op.put (0, 0) 1, Task1.Op.put (1, 1) 2, Task1.Op.put (2, 2) 3]
     (by decide)⟩

/-- Claim C3: `put` on a full cache with a fresh key evicts exactly the
oldest (least-recently-used) entry and appends the new one as newest; `get`
on a present key promotes it to most-recently-used; and the concrete
capacity-2 scenario `put(A,1), put(B,2), get(A), put(C,3)` evicts `B`,
after which `get(B)` is `-1` while `get(A) = 1` and `get(C) = 3`
(with `A = (0,0)`, `B = (1,1)`, `C = (2,2)`). -/
theorem claim_C3 :
    (∀ (s : Task1.LRUCache) (k : Task1.Key) (v : ℤ),
      Task1.containsKey s.cache k = false →
      (s.cache.length : ℤ) = s.capacity → 0 < s.capacity →
      (s.put k v).cache = (s.cache ++ [(k, v)]).tail) ∧
    (∀ (s : Task1.LRUCache) (k : Task1.Key) (v : ℤ),
      Task1.lookupKey s.cache k = some v →
      s.get k = (v, { s with cache := Task1.eraseKey s.cache k ++ [(k, v)] })) ∧
    ((Task1.applyOps (Task1.LRUCache.init 2)
        [Task1.Op.put (0, 0) 1, Task1.Op.put (1, 1) 2,
         Task1.Op.get (0, 0), Task1.Op.put (2, 2) 3]).get (1, 1)).1 = -1 ∧
    ((Task1.applyOps (Task1.LRUCache.init 2)
        [Task1.Op.put (0, 0) 1, Task1.Op.put (1, 1) 2,
         Task1.Op.get (0, 0), Task1.Op.put (2, 2) 3]).get (0, 0)).1 = 1 ∧
    ((Task1.applyOps (Task1.LRUCache.init 2)
        [Task1.Op.put (0, 0) 1, Task1.Op.put (1, 1) 2,
         Task1.Op.get (0, 0), Task1.Op.put (2, 2) 3]).get (2, 2)).1 = 3 := by
  refine ⟨Task1.put_evicts_head, ?_, by decide, by decide, by decide⟩
  intro s k v h
  exact Task1.get_of_lookup s k v h

theorem claim_C3_witness :
    Task1.containsKey ([(((0 : ℤ), (0 : ℤ)), (1 : ℤ)), (((1 : ℤ), (1 : ℤ)), 2)]) (2, 2) = false ∧
    (((2 : ℤ) : ℤ) = (2 : ℤ)) ∧ (0 : ℤ) < 2 ∧
    ((⟨[(((0 : ℤ), (0 : ℤ)), (1 : ℤ)), (((1 : ℤ), (1 : ℤ)), 2)], 2⟩ : Task1.LRUCache).put
        (2, 2) 9).cache =
      (([(((0 : ℤ), (0 : ℤ)), (1 : ℤ)), (((1 : ℤ), (1 : ℤ)), 2)] : Task1.Entries)
        ++ [((2, 2), 9)]).tail :=
  ⟨by decide, by decide, by decide,
   claim_C3.1 ⟨[(((0 : ℤ), (0 : ℤ)), (1 : ℤ)), (((1 : ℤ), (1 : ℤ)), 2)], 2⟩ (2, 2) 9
     (by decide) (by decide) (by decide)⟩

/-- Claim C4: for a valid mutated index, `update_with_cache` writes the value
into the array and removes from the cache exactly the entries whose range
`(l, r)` contains the index; every other entry survives with its value and
its relative recency position unchanged (the surviving dict is literally the
filter of the old one). Stated under the ordered-dict representation
invariant that keys are distinct. -/
theorem claim_C4 (array : List ℤ) (index value : ℤ) (s : Task1.LRUCache)
    (h1 : -(array.length : ℤ) ≤ index) (h2 : index < (array.length : ℤ))
    (hnd : (s.cache.map Prod.fst).Nodup) :
    Task1.update_with_cache array index value s =
      some (array.set (if index < 0 then ((array.length : ℤ) + index).toNat else index.toNat) value,
            { s with cache := s.cache.filter (fun e => !(decide (e.1.1 ≤ index ∧ index ≤ e.1.2))) }) :=
  Task1.update_with_cache_spec array index value s h1 h2 hnd

theorem claim_C4_witness :
    -((3 : ℤ) : ℤ) ≤ (1 : ℤ) ∧ (1 : ℤ) < 3 ∧
    (([(((0 : ℤ), (0 : ℤ)), (3 : ℤ)), (((0 : ℤ), (1 : ℤ)), 4), (((1 : ℤ), (2 : ℤ)), 5),
       (((2 : ℤ), (2 : ℤ)), 6)] : Task1.Entries).map Prod.fst).Nodup ∧
    Task1.update_with_cache [10, 20, 30] 1 7
      ⟨[(((0 : ℤ), (0 : ℤ)), (3 : ℤ)), (((0 : ℤ), (1 : ℤ)), 4), (((1 : ℤ), (2 : ℤ)), 5),
        (((2 : ℤ), (2 : ℤ)), 6)], 10⟩ =
      some ([10, 7, 30],
        ⟨[(((0 : ℤ), (0 : ℤ)), (3 : ℤ)), (((2 : ℤ), (2 : ℤ)), 6)], 10⟩) := by
  refine ⟨by decide, by decide, by decide, ?_⟩
  rw [claim_C4 [10, 20, 30] 1 7
    ⟨[(((0 : ℤ), (0 : ℤ)), (3 : ℤ)), (((0 : ℤ), (1 : ℤ)), 4), (((1 : ℤ), (2 : ℤ)), 5),
      (((2 : ℤ), (2 : ℤ)), 6)], 10⟩ (by decide) (by decide) (by decide)]
  decide

/-- Claim C5: after a successful `find(k)` the tree's root key is `k`, and
after any `insert(k, v)` — new key or overwrite — the root is the touched
node, so its key is `k`. -/
theorem claim_C5 :
    (∀ (t : Task2.Tree) (k v : ℤ), (Task2.find t k).1 = some v →
      Task2.rootKey (Task2.find t k).2 = some k) ∧
    (∀ (t : Task2.Tree) (k v : ℤ), Task2.rootKey (Task2.insert t k v) = some k) := by
  constructor
  · intro t k v h
    obtain ⟨_, h2⟩ := Task2.find_some_spec t k v h
    exact Task2.rootKey_of_rootKV _ k v h2
  · intro t k v
    exact Task2.rootKey_of_rootKV _ k v (Task2.insert_rootKV t k v)

theorem claim_C5_witness :
    (Task2.find (Task2.Tree.node (Task2.Tree.node Task2.Tree.nil 1 10 Task2.Tree.nil) 2 20
      Task2.Tree.nil) 1).1 = some 10 ∧
    Task2.rootKey (Task2.find (Task2.Tree.node (Task2.Tree.node Task2.Tree.nil 1 10
      Task2.Tree.nil) 2 20 Task2.Tree.nil) 1).2 = some 1 :=
  ⟨by decide,
   claim_C5.1 (Task2.Tree.node (Task2.Tree.node Task2.Tree.nil 1 10 Task2.Tree.nil) 2 20
     Task2.Tree.nil) 1 10 (by decide)⟩

/-- Claim C6: for every sequence of `insert`/`find` operations starting from
the empty splay tree, the in-order key sequence is strictly increasing (BST
ordering) after every operation; moreover each individual rotation
(`_left_rotate`/`_right_rotate` applied to any subtree position, the position
being a zipper context) preserves BST ordering of the whole tree. -/
theorem claim_C6 :
    (∀ ops : List Task2.SOp,
      List.Pairwise (· < ·) (Task2.keys (Task2.applySOps Task2.Tree.nil ops))) ∧
    (∀ (t : Task2.Tree) (ctx : List Task2.Frame),
      List.Pairwise (· < ·) (Task2.keys (Task2.plug t ctx)) →
      List.Pairwise (· < ·) (Task2.keys (Task2.plug (Task2.leftRotate t) ctx)) ∧
      List.Pairwise (· < ·) (Task2.keys (Task2.plug (Task2.rightRotate t) ctx))) := by
  constructor
  · intro ops
    rw [← List.chain'_iff_pairwise]
    exact Task2.applySOps_chain ops Task2.Tree.nil (by simp [Task2.keys])
  · intro t ctx h
    rw [Task2.keys_plug_leftRotate, Task2.keys_plug_rightRotate]
    exact ⟨h, h⟩

theorem claim_C6_witness :
    List.Pairwise (· < ·) (Task2.keys (Task2.plug
      (Task2.Tree.node (Task2.Tree.node Task2.Tree.nil 1 10 Task2.Tree.nil) 2 20 Task2.Tree.nil)
      [Task2.Frame.left 5 50 Task2.Tree.nil])) ∧
    List.Pairwise (· < ·) (Task2.keys (Task2.plug
      (Task2.rightRotate (Task2.Tree.node (Task2.Tree.node Task2.Tree.nil 1 10 Task2.Tree.nil)
        2 20 Task2.Tree.nil))
      [Task2.Frame.left 5 50 Task2.Tree.nil])) :=
  ⟨by decide,
   (claim_C6.2 (Task2.Tree.node (Task2.Tree.node Task2.Tree.nil 1 10 Task2.Tree.nil) 2 20
     Task2.Tree.nil) [Task2.Frame.left 5 50 Task2.Tree.nil] (by decide)).2⟩

/-- Claim C7: querying an absent key is a normal, total, side-effect-free
outcome for both stores: `LRUCache.get` returns `-1` and leaves the cache
(including recency order) untouched; `SplayTree.find` returns `none` and
leaves the tree structurally unchanged (no splay on a miss). -/
theorem claim_C7 :
    (∀ (s : Task1.LRUCache) (k : Task1.Key),
      Task1.containsKey s.cache k = false → s.get k = (-1, s)) ∧
    (∀ (t : Task2.Tree) (k : ℤ), k ∉ Task2.keys t → Task2.find t k = (none, t)) := by
  exact ⟨Task1.get_of_not_contains, Task2.find_of_not_mem⟩

theorem claim_C7_witness :
    Task1.containsKey ([(((0 : ℤ), (0 : ℤ)), (1 : ℤ))]) (1, 1) = false ∧
    ((⟨[(((0 : ℤ), (0 : ℤ)), (1 : ℤ))], 2⟩ : Task1.LRUCache).get (1, 1) =
      (-1, ⟨[(((0 : ℤ), (0 : ℤ)), (1 : ℤ))], 2⟩)) ∧
    (5 : ℤ) ∉ Task2.keys (Task2.Tree.node Task2.Tree.nil 1 10 Task2.Tree.nil) ∧
    Task2.find (Task2.Tree.node Task2.Tree.nil 1 10 Task2.Tree.nil) 5 =
      (none, Task2.Tree.node Task2.Tree.nil 1 10 Task2.Tree.nil) :=
  ⟨by decide,
   claim_C7.1 ⟨[(((0 : ℤ), (0 : ℤ)), (1 : ℤ))], 2⟩ (1, 1) (by decide),
   by decide,
   claim_C7.2 (Task2.Tree.node Task2.Tree.nil 1 10 Task2.Tree.nil) 5 (by decide)⟩

/-- Claim C8: `find` is idempotent on the tree structure — repeating
`find(k)` immediately leaves the tree exactly as after the first call, for
present and absent keys alike. -/
theorem claim_C8 (t : Task2.Tree) (k : ℤ) :
    (Task2.find (Task2.find t k).2 k).2 = (Task2.find t k).2 :=
  Task2.find_idem t k

/-- Claim C9: the two memoized Fibonacci implementations compute the same
function: for every `n ≥ 0` (here `n : ℕ` cast into the integer argument),
`fibonacci_lru` and `fibonacci_splay` from the empty tree both compute the
mathematical Fibonacci number with `F(0) = 0`, `F(1) = 1`. -/
theorem claim_C9 (n : ℕ) :
    Task2.fibonacci_lru (n : ℤ) = Nat.fib n ∧
    (Task2.fibonacci_splay (n : ℤ) Task2.Tree.nil).1 = Nat.fib n ∧
    (Task2.fibonacci_splay (n : ℤ) Task2.Tree.nil).1 = Task2.fibonacci_lru (n : ℤ) := by
  have h1 := Task2.fibonacci_lru_eq_fib n
  have h2 := Task2.fibonacci_splay_spec ((n : ℤ)).toNat (n : ℤ) le_rfl Task2.Tree.nil
    Task2.good_nil
  exact ⟨h1, by rw [h2.1, h1], h2.1⟩

/-- Claim C10: absence is signalled by the in-band integer `-1`: `get` on an
absent key returns `-1`, but so does `get` on a present key whose stored
value is `-1`; accordingly `range_sum_with_cache` treats any `-1` result as a
miss and recomputes the sum from the array in both situations. -/
theorem claim_C10 :
    (∀ (s : Task1.LRUCache) (k : Task1.Key),
      Task1.containsKey s.cache k = false → (s.get k).1 = -1) ∧
    (∀ (s : Task1.LRUCache) (k : Task1.Key),
      Task1.lookupKey s.cache k = some (-1) → (s.get k).1 = -1) ∧
    (∀ (array : List ℤ) (left right : ℤ) (s : Task1.LRUCache),
      Task1.lookupKey s.cache (left, right) = some (-1) →
      (Task1.range_sum_with_cache array left right s).1 = Task1.sliceSum array left right) ∧
    (∀ (array : List ℤ) (left right : ℤ) (s : Task1.LRUCache),
      Task1.containsKey s.cache (left, right) = false →
      (Task1.range_sum_with_cache array left right s).1 = Task1.sliceSum array left right) := by
  refine ⟨?_, ?_, ?_, ?_⟩
  · intro s k h
    rw [Task1.get_of_not_contains s k h]
  · intro s k h
    rw [Task1.get_of_lookup s k (-1) h]
  · intro array left right s h
    unfold Task1.range_sum_with_cache
    dsimp only
    rw [Task1.get_of_lookup s (left, right) (-1) h]
    simp
  · intro array left right s h
    unfold Task1.range_sum_with_cache
    dsimp only
    rw [Task1.get_of_not_contains s (left, right) h]
    simp

theorem claim_C10_witness :
    Task1.lookupKey ([(((0 : ℤ), (1 : ℤ)), (-1 : ℤ))]) (0, 1) = some (-1) ∧
    (Task1.range_sum_with_cache [4, 5, 6] 0 1
      ⟨[(((0 : ℤ), (1 : ℤ)), (-1 : ℤ))], 3⟩).1 = Task1.sliceSum [4, 5, 6] 0 1 :=
  ⟨by decide,
   claim_C10.2.2.1 [4, 5, 6] 0 1 ⟨[(((0 : ℤ), (1 : ℤ)), (-1 : ℤ))], 3⟩ (by decide)⟩
